import Mathlib

/-
Verification of the Path Guard of the "Universal Claude Developer Toolkit"
repository: the `protect-files.sh` PreToolUse hook, which decides whether a
candidate file path may be edited, by matching it against an ordered list of
protected patterns.

The shell source (part_002) reads a file path, then loops over
`PROTECTED_PATTERNS` in order; for the pattern `.git` it tests the regex
`(^|/)\.git(/|$)` (a path-segment-anchored match), for every other pattern it
tests plain substring containment (`[[ "$FILE_PATH" == *"$pattern"* ]]` with
the pattern quoted, so glob characters in the pattern are literal).  The first
matching pattern blocks the edit with the diagnostic
`Matches protected pattern '<pattern>'`; if no pattern matches the edit is
allowed.

We model paths and patterns as `String`, matching on their underlying
character lists.
-/

namespace PathGuard

/-- Anchored match: `startsWith pat s` holds when the character list `s` begins with `pat`.
Models anchored matching of a literal pattern at the head of a string. -/
def startsWith : List Char → List Char → Bool
  | [], _ => true
  | _ :: _, [] => false
  | p :: ps, c :: cs => p == c && startsWith ps cs

/-- Containment: `hasSub s pat` holds when the literal pattern `pat` occurs as a contiguous
substring of `s`.  Models bash `[[ "$s" == *"$pat"* ]]` with `pat` quoted
(no glob expansion: every character of the pattern, including `*`, is
literal). -/
def hasSub (s pat : List Char) : Bool :=
  match s with
  | [] => startsWith pat []
  | c :: cs => startsWith pat (c :: cs) || hasSub cs pat

/-- After an occurrence of `.git`, the regex `(^|/)\.git(/|$)` requires
end-of-string or a `/`. -/
def afterOk : List Char → Bool
  | [] => true
  | c :: _ => c == '/'

/-- Anchored segment test: `gitHere s` holds when `s` begins with `.git` followed by end-of-string or `/`.
This is the regex `\.git(/|$)` anchored at the current position. -/
def gitHere (s : List Char) : Bool :=
  startsWith ".git".data s && afterOk (s.drop 4)

/-- Scan for an occurrence of `/.git(/|$)` anywhere in the list: a `/`
immediately followed by a `gitHere` position. -/
def gitScan : List Char → Bool
  | [] => false
  | c :: cs => (c == '/' && gitHere cs) || gitScan cs

/-- The bash regex search `[[ "$FILE_PATH" =~ (^|/)\.git(/|$) ]]`: either the
path starts with `.git(/|$)`, or some `/` inside it is followed by
`.git(/|$)`. -/
def gitSegMatch (s : List Char) : Bool :=
  gitHere s || gitScan s

/-- The ordered list of protected patterns, exactly as declared in
`protect-files.sh`. -/
def PROTECTED_PATTERNS : List String :=
  [".env", ".env.local", ".env.*.local", "package-lock.json", "yarn.lock",
   ".git/", ".git", "credentials.json", "secrets", ".aws/credentials",
   ".ssh/", "*.pem", "*.key", "*.cert"]

/-- One iteration of the source's match loop: the pattern `.git` is
special-cased to the segment-anchored regex, every other pattern is a plain
substring test. -/
def matchesPattern (filePath pattern : String) : Bool :=
  if pattern == ".git" then gitSegMatch filePath.data
  else hasSub filePath.data pattern.data

/-- The guard's decision: allow the edit, or block it reporting the matched
pattern and a human-readable reason. -/
inductive Decision where
  | allowed : Decision
  | blocked (matchedPattern reason : String) : Decision
  deriving DecidableEq, Repr

/-- Returns `true` exactly on `blocked` decisions. -/
def Decision.isBlocked : Decision → Bool
  | .allowed => false
  | .blocked _ _ => true

/-- The reason string the source echoes when pattern `p` fires. -/
def reasonFor (p : String) : String :=
  "Matches protected pattern '" ++ p ++ "'"

/-- The source's match loop: walk the patterns in order; the first match
blocks (the script `exit 2`s out of the loop), otherwise fall through to
allow (`exit 0`). -/
def evaluate (patterns : List String) (filePath : String) : Decision :=
  match patterns with
  | [] => .allowed
  | p :: rest =>
      if matchesPattern filePath p then .blocked p (reasonFor p)
      else evaluate rest filePath

/-- The PATH_SEGMENT specification, transliterated from the spec: path `s`
contains the token `.git` at some position (`s = a ++ ".git" ++ b`) that is
immediately preceded by start-of-string (`a = []`) or `/` (`a` ends in `/`),
and immediately followed by end-of-string (`b = []`) or `/` (`b` starts
with `/`). -/
def segSpec (s : List Char) : Prop :=
  ∃ a b, s = a ++ ".git".data ++ b ∧
    (a = [] ∨ ∃ a', a = a' ++ ['/']) ∧
    (b = [] ∨ ∃ b', b = '/' :: b')

/-- A permutation of `PROTECTED_PATTERNS` with the first two rules swapped. -/
def permExample : List String :=
  [".env.local", ".env", ".env.*.local", "package-lock.json", "yarn.lock",
   ".git/", ".git", "credentials.json", "secrets", ".aws/credentials",
   ".ssh/", "*.pem", "*.key", "*.cert"]




theorem startsWith_iff (p s : List Char) :
    startsWith p s = true ↔ ∃ b, s = p ++ b := by
  induction p generalizing s with
  | nil => simp [startsWith]
  | cons x xs ih =>
    cases s with
    | nil => simp [startsWith]
    | cons c cs =>
      simp only [startsWith, Bool.and_eq_true, beq_iff_eq, ih, List.cons_append]
      constructor
      · rintro ⟨rfl, b, rfl⟩
        exact ⟨b, rfl⟩
      · rintro ⟨b, hb⟩
        injection hb with h1 h2
        exact ⟨h1.symm, b, h2⟩

theorem hasSub_iff (s pat : List Char) :
    hasSub s pat = true ↔ ∃ a b, s = a ++ pat ++ b := by
  induction s with
  | nil =>
    simp only [hasSub, startsWith_iff]
    constructor
    · rintro ⟨b, hb⟩
      exact ⟨[], b, by simpa using hb⟩
    · rintro ⟨a, b, hb⟩
      rcases (by simpa using hb.symm : a = [] ∧ pat = [] ∧ b = []) with ⟨rfl, rfl, rfl⟩
      exact ⟨[], by simp⟩
  | cons c cs ih =>
    simp only [hasSub, Bool.or_eq_true, startsWith_iff, ih]
    constructor
    · rintro (⟨b, hb⟩ | ⟨a, b, rfl⟩)
      · exact ⟨[], b, by simpa using hb⟩
      · exact ⟨c :: a, b, by simp⟩
    · rintro ⟨a, b, hb⟩
      cases a with
      | nil => exact Or.inl ⟨b, by simpa using hb⟩
      | cons c' a' =>
        injection hb with h1 h2
        exact Or.inr ⟨a', b, h2⟩

theorem afterOk_iff (t : List Char) :
    afterOk t = true ↔ t = [] ∨ ∃ t', t = '/' :: t' := by
  cases t with
  | nil => simp [afterOk]
  | cons c cs =>
    simp only [afterOk, beq_iff_eq]
    constructor
    · rintro rfl
      exact Or.inr ⟨cs, rfl⟩
    · rintro (h | ⟨t', ht⟩)
      · exact absurd h (by simp)
      · injection ht with h1 _

theorem drop4_append (b : List Char) : (".git".data ++ b).drop 4 = b := by
  have h4 : (".git".data).length = 4 := by decide
  rw [← h4, List.drop_left]

theorem gitHere_iff (s : List Char) :
    gitHere s = true ↔
      ∃ b, s = ".git".data ++ b ∧ (b = [] ∨ ∃ b', b = '/' :: b') := by
  simp only [gitHere, Bool.and_eq_true, startsWith_iff]
  constructor
  · rintro ⟨⟨b, rfl⟩, h2⟩
    rw [drop4_append] at h2
    exact ⟨b, rfl, (afterOk_iff b).mp h2⟩
  · rintro ⟨b, rfl, hb⟩
    refine ⟨⟨b, rfl⟩, ?_⟩
    rw [drop4_append]
    exact (afterOk_iff b).mpr hb

theorem gitScan_iff (s : List Char) :
    gitScan s = true ↔
      ∃ a rest, s = a ++ '/' :: rest ∧ gitHere rest = true := by
  induction s with
  | nil =>
    simp only [gitScan]
    constructor
    · intro h
      exact absurd h (by simp)
    · rintro ⟨a, rest, hb, _⟩
      exact absurd hb.symm (by simp)
  | cons c cs ih =>
    simp only [gitScan, Bool.or_eq_true, Bool.and_eq_true, beq_iff_eq, ih]
    constructor
    · rintro (⟨rfl, h⟩ | ⟨a, rest, rfl, h⟩)
      · exact ⟨[], cs, rfl, h⟩
      · exact ⟨c :: a, rest, rfl, h⟩
    · rintro ⟨a, rest, hb, h⟩
      cases a with
      | nil =>
        injection hb with h1 h2
        exact Or.inl ⟨h1, h2 ▸ h⟩
      | cons c' a' =>
        injection hb with h1 h2
        exact Or.inr ⟨a', rest, h2, h⟩

theorem gitSegMatch_iff_segSpec (s : List Char) :
    gitSegMatch s = true ↔ segSpec s := by
  unfold gitSegMatch segSpec
  rw [Bool.or_eq_true, gitHere_iff s, gitScan_iff s]
  constructor
  · rintro (⟨b, rfl, hb⟩ | ⟨a, rest, rfl, h⟩)
    · exact ⟨[], b, by simp, Or.inl rfl, hb⟩
    · rcases (gitHere_iff rest).mp h with ⟨b, rfl, hb⟩
      exact ⟨a ++ ['/'], b, by simp, Or.inr ⟨a, rfl⟩, hb⟩
  · rintro ⟨a, b, rfl, (rfl | ⟨a', rfl⟩), hb⟩
    · exact Or.inl ⟨b, by simp, hb⟩
    · refine Or.inr ⟨a', ".git".data ++ b, by simp, ?_⟩
      exact (gitHere_iff _).mpr ⟨b, rfl, hb⟩



theorem matchesPattern_ne_git (P pat : String) (h : pat ≠ ".git") :
    matchesPattern P pat = hasSub P.data pat.data := by
  simp [matchesPattern, h]

theorem evaluate_eq_find (patterns : List String) (P : String) :
    evaluate patterns P =
      match patterns.find? (fun pat => matchesPattern P pat) with
      | some pat => Decision.blocked pat ("Matches protected pattern '" ++ pat ++ "'")
      | none => Decision.allowed := by
  induction patterns with
  | nil => rfl
  | cons p rest ih =>
    cases hp : matchesPattern P p with
    | true => simp [evaluate, List.find?, hp, reasonFor]
    | false => simp [evaluate, List.find?, hp, ih]

theorem isBlocked_eq_any (patterns : List String) (P : String) :
    (evaluate patterns P).isBlocked = patterns.any (fun pat => matchesPattern P pat) := by
  induction patterns with
  | nil => rfl
  | cons p rest ih =>
    cases hp : matchesPattern P p with
    | true => simp [evaluate, hp, Decision.isBlocked]
    | false => simp [evaluate, hp, ih]

theorem any_perm {l₁ l₂ : List String} (h : l₁.Perm l₂) (f : String → Bool) :
    l₁.any f = l₂.any f := by
  cases h1 : l₁.any f with
  | true =>
    rcases List.any_eq_true.mp h1 with ⟨x, hx, hfx⟩
    exact (List.any_eq_true.mpr ⟨x, h.mem_iff.mp hx, hfx⟩).symm
  | false =>
    cases h2 : l₂.any f with
    | false => rfl
    | true =>
      rcases List.any_eq_true.mp h2 with ⟨x, hx, hfx⟩
      have hcontra := List.any_eq_true.mpr ⟨x, h.mem_iff.mpr hx, hfx⟩
      rw [h1] at hcontra
      exact hcontra

theorem evaluate_allowed_of_none (patterns : List String) (P : String)
    (h : ∀ q ∈ patterns, matchesPattern P q = false) :
    evaluate patterns P = .allowed := by
  induction patterns with
  | nil => rfl
  | cons p rest ih =>
    simp [evaluate, h p (List.mem_cons_self p rest)]
    exact ih (fun q hq => h q (List.mem_cons_of_mem p hq))

theorem evaluate_blocked_matches (patterns : List String) (P pat r : String)
    (h : evaluate patterns P = .blocked pat r) :
    pat ∈ patterns ∧ matchesPattern P pat = true := by
  induction patterns with
  | nil => exact absurd h (by simp [evaluate])
  | cons p rest ih =>
    cases hp : matchesPattern P p with
    | true =>
      simp [evaluate, hp] at h
      rcases h with ⟨rfl, _⟩
      exact ⟨List.mem_cons_self p rest, hp⟩
    | false =>
      simp [evaluate, hp] at h
      rcases ih h with ⟨hmem, hm⟩
      exact ⟨List.mem_cons_of_mem p hmem, hm⟩

theorem hasSub_of_hasSub_append (s p r : List Char) (h : hasSub s (p ++ r) = true) :
    hasSub s p = true := by
  rcases (hasSub_iff _ _).mp h with ⟨a, b, rfl⟩
  exact (hasSub_iff _ _).mpr ⟨a, r ++ b, by simp⟩

theorem mem_of_hasSub (s pat : List Char) (h : hasSub s pat = true) {c : Char}
    (hc : c ∈ pat) : c ∈ s := by
  rcases (hasSub_iff _ _).mp h with ⟨a, b, rfl⟩
  exact List.mem_append_left b (List.mem_append_right a hc)



/-- Claim C1: the PATH_SEGMENT rule with token `.git` matches a candidate path `P`
iff `P` contains `.git` at a position immediately preceded by start-of-string
or `/` and immediately followed by end-of-string or `/`; in particular it
matches `.git`, `.git/config`, `a/.git`, `a/.git/objects` and does not match
`.github`, `.github/workflows`, `x.gity`. -/
theorem c1_gitSegment_rule_correct :
    (∀ P : String, matchesPattern P ".git" = true ↔ segSpec P.data) ∧
    matchesPattern ".git" ".git" = true ∧
    matchesPattern ".git/config" ".git" = true ∧
    matchesPattern "a/.git" ".git" = true ∧
    matchesPattern "a/.git/objects" ".git" = true ∧
    matchesPattern ".github" ".git" = false ∧
    matchesPattern ".github/workflows" ".git" = false ∧
    matchesPattern "x.gity" ".git" = false := by
  refine ⟨?_, by decide, by decide, by decide, by decide, by decide, by decide,
    by decide⟩
  intro P
  have hm : matchesPattern P ".git" = gitSegMatch P.data := rfl
  rw [hm]
  exact gitSegMatch_iff_segSpec P.data

/-- Claim C2 counterexample: the claimed agreement between the `.git/` SUBSTRING
rule and the `.git` PATH_SEGMENT rule fails at the path `a.git/b`, which
contains the substring `.git/` but is rejected by the segment predicate. -/
theorem c2_counterexample_disagree :
    hasSub "a.git/b".data ".git/".data = true ∧
    matchesPattern "a.git/b" ".git" = false := by decide

/-- Claim C2 amended: the two rules disagree in both directions (`a.git/b` has the
substring but fails the segment predicate; `.git` passes the segment
predicate but lacks the substring), and the `.git/` rule is not redundant:
removing it flips `evaluate` on `a.git/b` from Blocked to Allowed. -/
theorem c2_amended_gitSlash_not_redundant :
    hasSub "a.git/b".data ".git/".data = true ∧
    matchesPattern "a.git/b" ".git" = false ∧
    matchesPattern ".git" ".git" = true ∧
    hasSub ".git".data ".git/".data = false ∧
    evaluate PROTECTED_PATTERNS "a.git/b" = .blocked ".git/" (reasonFor ".git/") ∧
    evaluate (PROTECTED_PATTERNS.erase ".git/") "a.git/b" = .allowed := by decide

/-- Claim C3: `evaluate` on the default rule list blocks with the pattern of the
first rule in iteration order whose predicate succeeds, with reason
`Matches protected pattern '<pattern>'`, and allows when no rule matches. -/
theorem c3_first_match_decision (P : String) :
    evaluate PROTECTED_PATTERNS P =
      match PROTECTED_PATTERNS.find? (fun pat => matchesPattern P pat) with
      | some pat =>
          Decision.blocked pat ("Matches protected pattern '" ++ pat ++ "'")
      | none => Decision.allowed :=
  evaluate_eq_find PROTECTED_PATTERNS P

/-- Claim C4: the `*.pem`, `*.key`, `*.cert` rules test literal substring
containment of the asterisk-bearing token (no glob expansion); hence any
asterisk-free path that matches no other rule is allowed, e.g.
`server.pem`. -/
theorem c4_glob_patterns_literal :
    (∀ P : String,
      matchesPattern P "*.pem" = hasSub P.data "*.pem".data ∧
      matchesPattern P "*.key" = hasSub P.data "*.key".data ∧
      matchesPattern P "*.cert" = hasSub P.data "*.cert".data) ∧
    (∀ P : String, '*' ∉ P.data →
      (∀ q ∈ PROTECTED_PATTERNS,
        q ≠ "*.pem" → q ≠ "*.key" → q ≠ "*.cert" → matchesPattern P q = false) →
      evaluate PROTECTED_PATTERNS P = .allowed) ∧
    evaluate PROTECTED_PATTERNS "server.pem" = .allowed := by
  refine ⟨?_, ?_, by decide⟩
  · intro P
    exact ⟨matchesPattern_ne_git P _ (by decide),
      matchesPattern_ne_git P _ (by decide),
      matchesPattern_ne_git P _ (by decide)⟩
  · intro P hstar hother
    apply evaluate_allowed_of_none
    have hstarpat : ∀ pat : String, '*' ∈ pat.data → pat ≠ ".git" →
        matchesPattern P pat = false := by
      intro pat hpc hne
      rw [matchesPattern_ne_git P pat hne]
      cases hps : hasSub P.data pat.data with
      | false => rfl
      | true => exact absurd (mem_of_hasSub _ _ hps hpc) hstar
    intro q hq
    fin_cases hq
    all_goals first
      | exact hstarpat _ (by decide) (by decide)
      | exact hother _ (by decide) (by decide) (by decide) (by decide)

/-- Claim C4 witness: `server.pem` contains no asterisk, matches no non-asterisk
rule, and is allowed. -/
theorem c4_witness :
    ('*' ∉ "server.pem".data) ∧
    evaluate PROTECTED_PATTERNS "server.pem" = .allowed :=
  ⟨by decide,
    c4_glob_patterns_literal.2.1 "server.pem" (by decide) (by decide)⟩

/-- Claim C5: permuting the rule list never changes the allow/block component of
the decision (only the reported pattern can change). -/
theorem c5_order_independence (l : List String) (P : String)
    (h : PROTECTED_PATTERNS.Perm l) :
    (evaluate PROTECTED_PATTERNS P).isBlocked = (evaluate l P).isBlocked := by
  rw [isBlocked_eq_any, isBlocked_eq_any]
  exact any_perm h _

/-- Claim C5 witness: swapping `.env` and `.env.local` preserves blocked-ness of
`a/.env.local` (even though the reported pattern differs). -/
theorem c5_witness :
    (evaluate PROTECTED_PATTERNS "a/.env.local").isBlocked =
      (evaluate permExample "a/.env.local").isBlocked ∧
    evaluate PROTECTED_PATTERNS "a/.env.local" =
      .blocked ".env" (reasonFor ".env") ∧
    evaluate permExample "a/.env.local" =
      .blocked ".env.local" (reasonFor ".env.local") :=
  ⟨c5_order_independence permExample "a/.env.local"
      (List.Perm.swap ".env.local" ".env"
        [".env.*.local", "package-lock.json", "yarn.lock", ".git/", ".git",
         "credentials.json", "secrets", ".aws/credentials", ".ssh/", "*.pem",
         "*.key", "*.cert"]),
    by decide, by decide⟩

/-- Claim C6: the empty path is allowed; no rule of either match kind matches it. -/
theorem c6_empty_path_allowed :
    evaluate PROTECTED_PATTERNS "" = .allowed ∧
    (PROTECTED_PATTERNS.all fun q => !matchesPattern "" q) = true := by decide

/-- Claim C7: `backend/.env.production` is blocked via `.env`,
`config/secrets/db.json` is blocked via `secrets`, and
`src/components/UserProfile.tsx` is allowed. -/
theorem c7_substring_examples :
    evaluate PROTECTED_PATTERNS "backend/.env.production" =
      .blocked ".env" (reasonFor ".env") ∧
    evaluate PROTECTED_PATTERNS "config/secrets/db.json" =
      .blocked "secrets" (reasonFor "secrets") ∧
    evaluate PROTECTED_PATTERNS "src/components/UserProfile.tsx" =
      .allowed := by decide

/-- Claim C8: `evaluate` is total: on every input it yields exactly one of
Allowed or Blocked (the embedded function is pure by construction). -/
theorem c8_totality (patterns : List String) (P : String) :
    (evaluate patterns P = .allowed ∧ (evaluate patterns P).isBlocked = false) ∨
    ((∃ pat r, evaluate patterns P = .blocked pat r) ∧
      (evaluate patterns P).isBlocked = true) := by
  cases hE : evaluate patterns P with
  | allowed => exact Or.inl ⟨rfl, rfl⟩
  | blocked mp rs => exact Or.inr ⟨⟨mp, rs, rfl⟩, rfl⟩

/-- Claim C9: the `.env.local` and `.env.*.local` rules can never be the reported
matched pattern: any path containing either also contains `.env`, which is
checked first. -/
theorem c9_shadowed_env_rules (P pat reason : String)
    (h : evaluate PROTECTED_PATTERNS P = .blocked pat reason) :
    pat ≠ ".env.local" ∧ pat ≠ ".env.*.local" := by
  cases h1 : matchesPattern P ".env" with
  | true =>
    have hEv : evaluate PROTECTED_PATTERNS P = .blocked ".env" (reasonFor ".env") := by
      simp [PROTECTED_PATTERNS, evaluate, h1]
    rw [hEv] at h
    injection h with e1 _
    subst e1
    exact ⟨by decide, by decide⟩
  | false =>
    have e1 : hasSub P.data ".env".data = false := by
      rw [← matchesPattern_ne_git P ".env" (by decide)]
      exact h1
    have e2 : hasSub P.data ".env.local".data = false := by
      cases h2 : hasSub P.data ".env.local".data with
      | false => rfl
      | true =>
        have hsplit : ".env.local".data = ".env".data ++ ".local".data := by decide
        have h3 : hasSub P.data ".env".data = true :=
          hasSub_of_hasSub_append P.data ".env".data ".local".data
            (by rw [← hsplit]; exact h2)
        rw [e1] at h3
        exact Bool.noConfusion h3
    have e3 : hasSub P.data ".env.*.local".data = false := by
      cases h2 : hasSub P.data ".env.*.local".data with
      | false => rfl
      | true =>
        have hsplit : ".env.*.local".data = ".env".data ++ ".*.local".data := by decide
        have h3 : hasSub P.data ".env".data = true :=
          hasSub_of_hasSub_append P.data ".env".data ".*.local".data
            (by rw [← hsplit]; exact h2)
        rw [e1] at h3
        exact Bool.noConfusion h3
    rcases evaluate_blocked_matches PROTECTED_PATTERNS P pat reason h with ⟨_, hm⟩
    constructor
    · intro hp
      subst hp
      rw [matchesPattern_ne_git P ".env.local" (by decide), e2] at hm
      exact Bool.noConfusion hm
    · intro hp
      subst hp
      rw [matchesPattern_ne_git P ".env.*.local" (by decide), e3] at hm
      exact Bool.noConfusion hm

/-- Claim C9 witness: `x/.env.local` is blocked, and the reported pattern is
`.env`, not `.env.local` or `.env.*.local`. -/
theorem c9_witness :
    evaluate PROTECTED_PATTERNS "x/.env.local" =
      .blocked ".env" (reasonFor ".env") ∧
    ((".env" : String) ≠ ".env.local" ∧ (".env" : String) ≠ ".env.*.local") :=
  ⟨by decide,
    c9_shadowed_env_rules "x/.env.local" ".env" (reasonFor ".env") (by decide)⟩

/-- Claim C10: any path containing the substring `.env` anywhere — even inside a
longer name — is blocked, with `.env` as the reported pattern. -/
theorem c10_env_overblocks (P : String)
    (h : hasSub P.data ".env".data = true) :
    evaluate PROTECTED_PATTERNS P = .blocked ".env" (reasonFor ".env") := by
  have hm : matchesPattern P ".env" = true := by
    rw [matchesPattern_ne_git P ".env" (by decide)]
    exact h
  simp [PROTECTED_PATTERNS, evaluate, hm]

/-- Claim C10 witness: `config.envoy.yaml` and `docs/.environment/readme.md`
contain `.env` inside longer names and are blocked. -/
theorem c10_witness :
    hasSub "config.envoy.yaml".data ".env".data = true ∧
    evaluate PROTECTED_PATTERNS "config.envoy.yaml" =
      .blocked ".env" (reasonFor ".env") ∧
    evaluate PROTECTED_PATTERNS "docs/.environment/readme.md" =
      .blocked ".env" (reasonFor ".env") :=
  ⟨by decide, c10_env_overblocks "config.envoy.yaml" (by decide), by decide⟩

end PathGuard
